import Mathlib

/-!
Verification of the spalign conversation-synthesis core.

Shallow embedding of the Python sources under src/spalign/:
  database.py      — scenario hashing and the SQLite job ledger
  utils.py         — tag parsing, role mapping
  batcher.py       — micro-batching result dispatch
  conversation.py  — intervention probability, speaker selection,
                     turn recording, ledger commits

Machine floats are modelled as rationals, SQLite rows as a list of
records, and async futures as an explicit state type.
-/

namespace Spalign

/-! ### JSON values and serialization (database.py, get_scenario_hash)

Python scenario data is a dict of JSON-like values.  The call
json.dumps(data, sort_keys=True, ensure_ascii=False) renders with keys
sorted at every object level, separators ", " and ": ", and non-ASCII
characters kept verbatim. -/

/-- JSON-like value: the payload type of a scenario dict. -/
inductive JVal where
  | null : JVal
  | bool (b : Bool) : JVal
  | num (n : Int) : JVal
  | str (s : String) : JVal
  | arr (xs : List JVal) : JVal
  | obj (kvs : List (String × JVal)) : JVal

/-- One scenario record: a JSON object given as an association list in
insertion order (a Python dict preserves insertion order). -/
abbrev Scenario := List (String × JVal)

/-- Two hex digits of a byte below 0x20, as json.dumps emits for control
characters. -/
def hexDigit (n : Nat) : Char :=
  if n < 10 then Char.ofNat (48 + n) else Char.ofNat (87 + n)

/-- JSON escaping of a single character, matching json.dumps with
ensure_ascii=False: quote, backslash, the short control escapes, and
\u00XX for the remaining control characters. -/
def escape_char (c : Char) : String :=
  if c = '"' then "\\\""
  else if c = '\\' then "\\\\"
  else if c = '\n' then "\\n"
  else if c = '\t' then "\\t"
  else if c = '\r' then "\\r"
  else if c = Char.ofNat 8 then "\\b"
  else if c = Char.ofNat 12 then "\\f"
  else if c.toNat < 32 then
    "\\u00" ++ String.singleton (hexDigit (c.toNat / 16))
      ++ String.singleton (hexDigit (c.toNat % 16))
  else String.singleton c

/-- JSON rendering of a string literal. -/
def encode_string (s : String) : String :=
  "\"" ++ String.join (s.data.map escape_char) ++ "\""

/-- Comma-free join with a separator, as str.join does. -/
def joinSep (sep : String) : List String → String
  | [] => ""
  | [x] => x
  | x :: y :: xs => x ++ sep ++ joinSep sep (y :: xs)

/-- Stable insertion of a (key, rendered value) pair into a list sorted
by key: the sorting step of sort_keys=True. -/
def insertByKey (x : String × String) : List (String × String) → List (String × String)
  | [] => [x]
  | y :: ys => if x.1 ≤ y.1 then x :: y :: ys else y :: insertByKey x ys

/-- Sort an association list of rendered entries by key (Python sorted
is a stable sort; keys of a dict are unique, so stability is moot). -/
def sortByKey (l : List (String × String)) : List (String × String) :=
  l.foldr insertByKey []

mutual

/-- Rendering of json.dumps(·, sort_keys=True, ensure_ascii=False) with
the default separators.  Object entries are serialized first and then
sorted by their raw key, which renders the same text as sorting the
entries and then serializing, since the sort key is the key string
alone. -/
def serialize : JVal → String
  | .null => "null"
  | .bool b => if b then "true" else "false"
  | .num n => toString n
  | .str s => encode_string s
  | .arr xs => "[" ++ joinSep ", " (serializeList xs) ++ "]"
  | .obj kvs =>
      "\x7b" ++
        joinSep ", "
          ((sortByKey (serializeKvs kvs)).map
            (fun p => encode_string p.1 ++ ": " ++ p.2)) ++
      "\x7d"

/-- Rendering of each element of a JSON array. -/
def serializeList : List JVal → List String
  | [] => []
  | x :: xs => serialize x :: serializeList xs

/-- Rendering of the value of each object entry, keeping the raw key. -/
def serializeKvs : List (String × JVal) → List (String × String)
  | [] => []
  | (k, v) :: kvs => (k, serialize v) :: serializeKvs kvs

end

/-- json.dumps(data, sort_keys=True, ensure_ascii=False) on a whole
scenario dict (database.py line 33). -/
def json_dumps_sorted (data : Scenario) : String :=
  serialize (.obj data)

/-- get_scenario_hash (database.py lines 31-34).  The MD5 hex digest of
the canonical serialization.  The digest hashlib.md5(·).hexdigest() is an
external library function and is abstracted as the parameter md5hex; every
property proved here depends only on it being a function of the serialized
string. -/
def get_scenario_hash (md5hex : String → String) (data : Scenario) : String :=
  md5hex (json_dumps_sorted data)

/-! ### The job ledger (database.py)

The SQLite table conversations is modelled as a list of rows in
insertion order; scenario_hash is declared UNIQUE by init_db, which the
INSERT OR IGNORE of insert_pending_scenarios maintains.  The SQL value
CURRENT_TIMESTAMP is passed in as the parameter now. -/

/-- One row of the conversations table (init_db, lines 16-25). -/
structure Row where
  scenario_hash : String
  status : String
  result : Option String
  created_at : Nat
  updated_at : Nat
deriving DecidableEq, Repr

/-- The whole table. -/
abbrev DB := List Row

/-- INSERT OR IGNORE of one pending row, keyed by the UNIQUE column
scenario_hash (insert_pending_scenarios, lines 44-50). -/
def insert_or_ignore_pending (h : String) (now : Nat) (db : DB) : DB :=
  if db.any (fun r => r.scenario_hash == h) then db
  else db ++ [⟨h, "pending", none, now, now⟩]

/-- insert_pending_scenarios (database.py lines 37-53): one INSERT OR
IGNORE per dataset entry, in order. -/
def insert_pending_scenarios (md5hex : String → String) (dataset : List Scenario)
    (now : Nat) (db : DB) : DB :=
  dataset.foldl (fun d data => insert_or_ignore_pending (get_scenario_hash md5hex data) now d) db

/-- get_pending_scenarios (lines 56-68): the subset of the in-memory
dataset whose hash currently has a row with status pending. -/
def get_pending_scenarios (md5hex : String → String) (dataset : List Scenario)
    (db : DB) : List Scenario :=
  dataset.filter (fun data =>
    db.any (fun r => r.scenario_hash == get_scenario_hash md5hex data && r.status == "pending"))

/-- get_failed_scenarios (lines 142-154): same with status failed. -/
def get_failed_scenarios (md5hex : String → String) (dataset : List Scenario)
    (db : DB) : List Scenario :=
  dataset.filter (fun data =>
    db.any (fun r => r.scenario_hash == get_scenario_hash md5hex data && r.status == "failed"))

/-- mark_completed (lines 71-87): UPDATE ... WHERE scenario_hash = h.
The stored result is the serialized record blob json.dumps(result). -/
def mark_completed (h : String) (result : String) (now : Nat) (db : DB) : DB :=
  db.map (fun r =>
    if r.scenario_hash == h then
      { r with status := "completed", result := some result, updated_at := now }
    else r)

/-- mark_failed (lines 89-104): UPDATE ... WHERE scenario_hash = h,
storing json.dumps({"error": error}). -/
def mark_failed (h : String) (error : String) (now : Nat) (db : DB) : DB :=
  db.map (fun r =>
    if r.scenario_hash == h then
      { r with status := "failed",
               result := some (json_dumps_sorted [("error", .str error)]),
               updated_at := now }
    else r)

/-- reset_failed_to_pending (lines 157-171): bulk UPDATE of every failed
row back to pending with result cleared; returns cursor.rowcount, the
number of rows the UPDATE matched. -/
def reset_failed_to_pending (now : Nat) (db : DB) : Nat × DB :=
  (db.countP (fun r => r.status == "failed"),
   db.map (fun r =>
     if r.status == "failed" then
       { r with status := "pending", result := none, updated_at := now }
     else r))

/-! ### Tag parsing (utils.py)

parse_utterance scans raw model text with re.finditer for the pattern
of a bracket, one or more non-closing-bracket characters, and a closing
bracket, folding the matched tokens through an if/elif chain, and strips
every matched token with re.sub of the same pattern.  The scan is
modelled character-by-character with Python regex semantics: at an
opening bracket the engine matches up to the first closing bracket
provided at least one character lies between; on failure it resumes one
character later. -/

/-- Scan to the first closing bracket: the characters before it and the
characters after it, or none when no closing bracket exists. -/
def split_close : List Char → Option (List Char × List Char)
  | [] => none
  | c :: rest =>
      if c = ']' then some ([], rest)
      else (split_close rest).map (fun p => (c :: p.1, p.2))

theorem split_close_length :
    ∀ {l : List Char} {a b : List Char}, split_close l = some (a, b) → b.length < l.length := by
  intro l
  induction l with
  | nil => intro a b h; simp [split_close] at h
  | cons c rest ih =>
      intro a b h
      by_cases hc : c = ']'
      · rw [split_close, if_pos hc] at h
        cases h
        simp
      · rw [split_close, if_neg hc] at h
        cases hsc : split_close rest with
        | none => rw [hsc] at h; simp at h
        | some p =>
            obtain ⟨p1, p2⟩ := p
            rw [hsc] at h
            simp at h
            obtain ⟨h1, h2⟩ := h
            have hlt := ih (a := p1) (b := p2) (by rw [hsc])
            subst h2
            simp
            omega

/-- Inner texts of the bracket tokens found by re.finditer, in match
order (utils.py line 41). -/
def extract_tags : List Char → List String
  | [] => []
  | c :: rest =>
      if c = '[' then
        match h : split_close rest with
        | some (inner, after) =>
            if inner.isEmpty then extract_tags rest
            else (⟨inner⟩ : String) :: extract_tags after
        | none => []
      else extract_tags rest
termination_by l => l.length
decreasing_by
  · simp
  · have := split_close_length h
    simp
    omega
  · simp

/-- Text with every matched bracket token removed, as re.sub with the
empty replacement produces (utils.py line 55). -/
def strip_tokens : List Char → List Char
  | [] => []
  | c :: rest =>
      if c = '[' then
        match h : split_close rest with
        | some (inner, after) =>
            if inner.isEmpty then c :: strip_tokens rest
            else strip_tokens after
        | none => c :: rest
      else c :: strip_tokens rest
termination_by l => l.length
decreasing_by
  · simp
  · have := split_close_length h
    simp
    omega
  · simp

/-- Return value of parse_utterance, in source order: speaker echo,
emotion, cleaned text, next-speaker hint. -/
structure ParsedUtterance where
  speaker : Option String
  emotion : Option String
  content : String
  next_speaker : String
deriving DecidableEq, Repr

/-- Python str.startswith, by character-list comparison. -/
def startswith (s pre : String) : Bool :=
  pre.data.isPrefixOf s.data

/-- Loop body of parse_utterance (utils.py lines 43-52): the if/elif
chain over one matched tag, where inner is the text inside the brackets
and the stored values are the full bracketed forms. -/
def parse_tag_fold (st : Option String × Option String × String) (inner : String) :
    Option String × Option String × String :=
  let speaker := st.1
  let emotion := st.2.1
  let next_speaker := st.2.2
  let full := "[" ++ inner ++ "]"
  if startswith inner "emotion:" && emotion.isNone then
    (speaker, some full, next_speaker)
  else if startswith inner "next:" && next_speaker == "[next:user_00]" then
    (speaker, emotion, full)
  else if speaker.isNone then
    (some full, emotion, next_speaker)
  else
    (speaker, emotion, next_speaker)

/-- parse_utterance (utils.py lines 35-57). -/
def parse_utterance (text : String) : ParsedUtterance :=
  let tags := extract_tags text.data
  let st := tags.foldl parse_tag_fold (none, none, "[next:user_00]")
  ⟨st.1, st.2.1, ⟨strip_tokens text.data⟩, st.2.2⟩

/-- parse_role (utils.py lines 14-18): the dict from role index to name,
indices 0 to n-1 being the characters in order and index n the persona;
modelled as the list whose positional lookup is that dict. -/
def parse_role (characters : List String) (persona_name : String) : List String :=
  characters ++ [persona_name]

/-! ### Micro-batcher result dispatch (batcher.py)

The futures collected into one batch are modelled by their externally
visible state; the bulk call is an oracle giving either the output list
or an exception. -/

/-- State of one submitted request future. -/
inductive Fut where
  | pending : Fut
  | cancelled : Fut
  | resolved (s : String) : Fut
deriving DecidableEq, Repr

/-- Result dispatch of VLLMBatcher._runner (batcher.py lines 54-70): on
success, zip of futures with outputs resolves every non-cancelled future
with its stripped text, futures beyond the output count untouched; on
exception, every non-cancelled future in the batch is resolved with the
empty string and the exception is not re-raised.  Python str.strip is
modelled by String.trim. -/
def runner_dispatch (outs : Except String (List String)) (futures : List Fut) : List Fut :=
  match outs with
  | .ok texts =>
      (List.zipWith
        (fun f t =>
          match f with
          | .cancelled => Fut.cancelled
          | _ => Fut.resolved t.trim)
        futures texts) ++ futures.drop texts.length
  | .error _ =>
      futures.map (fun f =>
        match f with
        | .cancelled => Fut.cancelled
        | _ => Fut.resolved "")

/-! ### Conversation generation (conversation.py)

Machine floats become rationals.  The random draws a turn may consume
are passed explicitly; the generation calls are an oracle of per-turn
outcomes. -/

/-- PersonaParams (models.py lines 14-21). -/
structure PersonaParams where
  profile : String
  base_prob : ℚ
  max_prob : ℚ
  decay : ℚ
  recovery_step : ℚ

/-- Who spoke on a turn, for the probability update. -/
inductive SpeakerKind where
  | persona : SpeakerKind
  | character : SpeakerKind
deriving DecidableEq, Repr

/-- Intervention-probability update run once per turn before generation
(conversation.py lines 245-249). -/
def update_prob (params : PersonaParams) (p : ℚ) : SpeakerKind → ℚ
  | .persona => max params.base_prob (p * params.decay)
  | .character => min params.max_prob (p + params.recovery_step)

/-- Probability after a whole turn sequence, starting from base_prob
(conversation.py line 133). -/
def run_probs (params : PersonaParams) (seq : List SpeakerKind) : ℚ :=
  seq.foldl (update_prob params) params.base_prob

/-- One recorded history entry (conversation.py lines 286-293); every
recorded entry carries a name, so the defensive missing-name branches of
the selection code are unreachable and elided. -/
structure HistEntry where
  index : Nat
  name : String
  utterance : String
  next_speaker : Option String
deriving DecidableEq, Repr

/-- Random draws one speaker-selection step may consume: the persona
draw, the 90% draw, and the two random.choice positions. -/
structure Draws where
  r1 : ℚ
  r2 : ℚ
  c1 : Nat
  c2 : Nat

/-- random.choice over a nonempty list, with the drawn position reduced
modulo the length to keep the model total. -/
def rand_choice (l : List String) (c : Nat) : String :=
  l.getD (c % l.length) ""

/-- Speaker selection for turn t (conversation.py lines 164-227).  Turn
0 takes roles[0] or raises when roles is empty; a later turn draws the
persona with probability p_prob scaled by the cast size, else follows
the myself-hint / 90% uniform / repeat chain over the previous entry. -/
def select_speaker (t : Nat) (roles : List String) (p_name : String) (p_prob : ℚ)
    (n_characters : Nat) (histories : List HistEntry) (d : Draws) :
    Except String String :=
  if t = 0 then
    match roles.head? with
    | none => .error "Role index 0 not found in roles"
    | some s => .ok s
  else
    let others := roles.filter (fun n => n != p_name)
    if d.r1 < p_prob * (n_characters + 1) then .ok p_name
    else
      match histories.getLast? with
      | some last =>
          if last.next_speaker = some "myself" then .ok last.name
          else if others.isEmpty then .ok p_name
          else if d.r2 < (9 : ℚ) / 10 then .ok (rand_choice others d.c1)
          else .ok last.name
      | none =>
          if others.isEmpty then .ok p_name else .ok (rand_choice others d.c2)

/-- Per-turn generation outcome, as an oracle for the awaited calls: a
persona turn either yields text or raises inside the collaborator call;
a character turn always yields text, the empty string being the
batcher's failure sentinel. -/
inductive TurnOut where
  | personaOk (s : String) : TurnOut
  | personaErr (e : String) : TurnOut
  | charRes (s : String) : TurnOut
deriving DecidableEq, Repr

/-- Recording discipline of the generation loop (conversation.py lines
159-303), with the t-th list element the outcome of turn t: a persona
success is recorded at index t; a persona collaborator error returns the
empty dict at once (lines 254-261), modelled as none; a character result
is recorded at index t unless it is the empty failure sentinel, which
skips the turn (lines 271-276).  Recorded pairs are index and raw
utterance. -/
def run_turns : List TurnOut → Nat → Option (List (Nat × String))
  | [], _ => some []
  | .personaOk s :: rest, t => (run_turns rest (t + 1)).map (fun hs => (t, s) :: hs)
  | .personaErr _ :: _, _ => none
  | .charRes s :: rest, t =>
      if s = "" then run_turns rest (t + 1)
      else (run_turns rest (t + 1)).map (fun hs => (t, s) :: hs)

/-- Observable outcome of generate_conversation on a given oracle of
turn outcomes. -/
inductive ConvOutcome where
  | emptyResult : ConvOutcome
  | completed (hist : List (Nat × String)) : ConvOutcome
  | failedRaise (err : String) : ConvOutcome
deriving DecidableEq, Repr

/-- Result of generate_conversation after the loop (conversation.py
lines 252-339): a persona error returns the empty dict from inside the
try block; an empty history raises ValueError, caught by the outer
handler and re-raised; otherwise the packed record is returned. -/
def generate_conversation (outs : List TurnOut) : ConvOutcome :=
  match run_turns outs 0 with
  | none => .emptyResult
  | some [] => .failedRaise "Failed to generate any conversation turns"
  | some hs => .completed hs

/-- Ledger effect of the same run (conversation.py lines 261, 308, 322,
338): the persona-error return path performs no ledger write; the
empty-history ValueError reaches the outer handler, which calls
mark_failed; success calls mark_completed with the serialized record. -/
def generate_conversation_db (outs : List TurnOut) (h : String) (result : String)
    (now : Nat) (db : DB) : DB :=
  match run_turns outs 0 with
  | none => db
  | some [] => mark_failed h "Failed to generate any conversation turns" now db
  | some _ => mark_completed h result now db

/-! ### Specification-side characterizations of the tag parser

Independent find-first formulations of what parse_utterance returns,
to be proved equivalent to the fold over the if/elif chain. -/

/-- Tag classifier: an emotion tag. -/
def is_emotion_tag (inner : String) : Bool := startswith inner "emotion:"

/-- Tag classifier: a next-speaker tag. -/
def is_next_tag (inner : String) : Bool := startswith inner "next:"

/-- Full bracketed form of an inner tag text. -/
def full_tag (inner : String) : String := "[" ++ inner ++ "]"

/-- First emotion tag of the scan, in full bracketed form. -/
def spec_emotion (tags : List String) : Option String :=
  (tags.find? is_emotion_tag).map full_tag

/-- First next tag whose value differs from the default, else the
default hint. -/
def spec_next (tags : List String) : String :=
  match tags.find? (fun t => is_next_tag t && t != "next:user_00") with
  | some t => full_tag t
  | none => "[next:user_00]"

/-- The emotion rule claims tag t when t is an emotion tag and no
earlier tag was one. -/
def emotion_takes (prev : List String) (t : String) : Bool :=
  is_emotion_tag t && !(prev.any is_emotion_tag)

/-- The next rule claims tag t when t is a next tag and no earlier next
tag differed from the default (a literal default token leaves the slot
open). -/
def next_takes (prev : List String) (t : String) : Bool :=
  is_next_tag t && !(prev.any (fun u => is_next_tag u && u != "next:user_00"))

/-- First tag claimed by neither the emotion rule nor the next rule at
its own position: the role echo. -/
def find_role_echo (prev : List String) : List String → Option String
  | [] => none
  | t :: rest =>
      if emotion_takes prev t || next_takes prev t then
        find_role_echo (prev ++ [t]) rest
      else some (full_tag t)

/-- Fold state the specification rules predict after scanning pre. -/
def spec_state (pre : List String) : Option String × Option String × String :=
  (find_role_echo [] pre, spec_emotion pre, spec_next pre)

/-! ## Theorems -/

/-! ### Ledger lemmas -/

/-- Hash column of the table, in row order. -/
def hashes (db : DB) : List String := db.map (fun r => r.scenario_hash)

theorem mem_hashes {db : DB} {x : String} :
    x ∈ hashes db ↔ ∃ r ∈ db, r.scenario_hash = x := by
  simp [hashes]

theorem insert_or_ignore_of_mem {h : String} {now : Nat} {db : DB}
    (hm : h ∈ hashes db) : insert_or_ignore_pending h now db = db := by
  obtain ⟨r, hr, he⟩ := mem_hashes.mp hm
  unfold insert_or_ignore_pending
  rw [if_pos (List.any_eq_true.mpr ⟨r, hr, by simp [he]⟩)]

theorem insert_or_ignore_of_not_mem {h : String} {now : Nat} {db : DB}
    (hm : h ∉ hashes db) :
    insert_or_ignore_pending h now db = db ++ [⟨h, "pending", none, now, now⟩] := by
  unfold insert_or_ignore_pending
  rw [if_neg]
  intro hany
  obtain ⟨r, hr, he⟩ := List.any_eq_true.mp hany
  exact hm (mem_hashes.mpr ⟨r, hr, by simpa using he⟩)

theorem mem_hashes_insert_or_ignore {x h : String} {now : Nat} {db : DB} :
    x ∈ hashes (insert_or_ignore_pending h now db) ↔ x ∈ hashes db ∨ x = h := by
  by_cases hm : h ∈ hashes db
  · rw [insert_or_ignore_of_mem hm]
    constructor
    · exact Or.inl
    · rintro (hx | rfl)
      · exact hx
      · exact hm
  · rw [insert_or_ignore_of_not_mem hm]
    simp [hashes]

theorem nodup_hashes_insert_or_ignore {h : String} {now : Nat} {db : DB}
    (hnd : (hashes db).Nodup) : (hashes (insert_or_ignore_pending h now db)).Nodup := by
  by_cases hm : h ∈ hashes db
  · rw [insert_or_ignore_of_mem hm]; exact hnd
  · rw [insert_or_ignore_of_not_mem hm]
    simp only [hashes, List.map_append, List.map_cons, List.map_nil]
    exact List.Nodup.append hnd (List.nodup_singleton h)
      (by intro a ha hb; simp at hb; subst hb; exact hm ha)

theorem insert_pending_is_append (md5hex : String → String) (dataset : List Scenario)
    (now : Nat) (db : DB) :
    ∃ new, insert_pending_scenarios md5hex dataset now db = db ++ new ∧
      ∀ r ∈ new, r.status = "pending" ∧ r.result = none ∧ r.scenario_hash ∉ hashes db := by
  induction dataset generalizing db with
  | nil => exact ⟨[], by simp [insert_pending_scenarios], by simp⟩
  | cons data rest ih =>
      have hstep : insert_pending_scenarios md5hex (data :: rest) now db =
          insert_pending_scenarios md5hex rest now
            (insert_or_ignore_pending (get_scenario_hash md5hex data) now db) := rfl
      by_cases hm : get_scenario_hash md5hex data ∈ hashes db
      · rw [hstep, insert_or_ignore_of_mem hm]
        exact ih db
      · rw [hstep, insert_or_ignore_of_not_mem hm]
        obtain ⟨new, hnew, hprop⟩ :=
          ih (db ++ [⟨get_scenario_hash md5hex data, "pending", none, now, now⟩])
        refine ⟨⟨get_scenario_hash md5hex data, "pending", none, now, now⟩ :: new,
          by rw [hnew]; simp, ?_⟩
        intro r hr
        rcases List.mem_cons.mp hr with rfl | hr
        · exact ⟨rfl, rfl, hm⟩
        · obtain ⟨h1, h2, h3⟩ := hprop r hr
          refine ⟨h1, h2, fun hc => h3 ?_⟩
          simp only [hashes, List.map_append] at *
          exact List.mem_append_left _ hc

theorem mem_hashes_insert_pending {md5hex : String → String} {dataset : List Scenario}
    {now : Nat} {db : DB} {x : String} :
    x ∈ hashes (insert_pending_scenarios md5hex dataset now db) ↔
      x ∈ hashes db ∨ x ∈ dataset.map (get_scenario_hash md5hex) := by
  induction dataset generalizing db with
  | nil => simp [insert_pending_scenarios]
  | cons data rest ih =>
      have hstep : insert_pending_scenarios md5hex (data :: rest) now db =
          insert_pending_scenarios md5hex rest now
            (insert_or_ignore_pending (get_scenario_hash md5hex data) now db) := rfl
      rw [hstep, ih, mem_hashes_insert_or_ignore]
      simp
      tauto

theorem nodup_hashes_insert_pending {md5hex : String → String} {dataset : List Scenario}
    {now : Nat} {db : DB} (hnd : (hashes db).Nodup) :
    (hashes (insert_pending_scenarios md5hex dataset now db)).Nodup := by
  induction dataset generalizing db with
  | nil => exact hnd
  | cons data rest ih => exact ih (nodup_hashes_insert_or_ignore hnd)

theorem row_preserved_insert_pending {md5hex : String → String} {dataset : List Scenario}
    {now : Nat} {db : DB} {r : Row} (hr : r ∈ db) :
    r ∈ insert_pending_scenarios md5hex dataset now db := by
  obtain ⟨new, hnew, -⟩ := insert_pending_is_append md5hex dataset now db
  rw [hnew]
  exact List.mem_append_left _ hr

theorem pending_row_created {md5hex : String → String} {dataset : List Scenario}
    {now : Nat} {db : DB} {data : Scenario} (hd : data ∈ dataset)
    (habs : get_scenario_hash md5hex data ∉ hashes db) :
    ∃ r ∈ insert_pending_scenarios md5hex dataset now db,
      r.scenario_hash = get_scenario_hash md5hex data ∧
        r.status = "pending" ∧ r.result = none := by
  induction dataset generalizing db with
  | nil => cases hd
  | cons d rest ih =>
      have hstep : insert_pending_scenarios md5hex (d :: rest) now db =
          insert_pending_scenarios md5hex rest now
            (insert_or_ignore_pending (get_scenario_hash md5hex d) now db) := rfl
      rw [hstep]
      rcases List.mem_cons.mp hd with rfl | hd
      · rw [insert_or_ignore_of_not_mem habs]
        refine ⟨⟨get_scenario_hash md5hex data, "pending", none, now, now⟩,
          row_preserved_insert_pending (by simp), rfl, rfl, rfl⟩
      · by_cases hx : get_scenario_hash md5hex data = get_scenario_hash md5hex d
        · rw [insert_or_ignore_of_not_mem (hx ▸ habs)]
          refine ⟨⟨get_scenario_hash md5hex d, "pending", none, now, now⟩,
            row_preserved_insert_pending (by simp), hx.symm, rfl, rfl⟩
        · refine ih hd ?_
          rw [mem_hashes_insert_or_ignore]
          rintro (hc | hc)
          · exact habs hc
          · exact hx hc

theorem map_update_no_match (db : DB) (h : String) (f : Row → Row)
    (habs : ∀ r ∈ db, r.scenario_hash ≠ h) :
    db.map (fun r => if r.scenario_hash == h then f r else r) = db := by
  induction db with
  | nil => rfl
  | cons r rest ih =>
      simp only [List.map_cons]
      rw [if_neg (by simp [habs r (List.mem_cons_self r rest)]),
        ih (fun x hx => habs x (List.mem_cons_of_mem _ hx))]

/-! ### Claim C7 -/

/-- C7: insert_pending creates a pending row for each hash not yet
present, is a no-op for hashes already present (the run only appends,
so every existing row is unchanged, and when all hashes are present
nothing at all changes), and iterating the same dataset any number of
times from an empty ledger never raises the row count above the number
of distinct scenario hashes. -/
theorem C7_insert_pending_idempotent (md5hex : String → String) (dataset : List Scenario)
    (now : Nat) (db : DB) :
    (∀ data ∈ dataset, get_scenario_hash md5hex data ∉ hashes db →
        ∃ r ∈ insert_pending_scenarios md5hex dataset now db,
          r.scenario_hash = get_scenario_hash md5hex data ∧
            r.status = "pending" ∧ r.result = none) ∧
    (∃ new, insert_pending_scenarios md5hex dataset now db = db ++ new ∧
        ∀ r ∈ new, r.scenario_hash ∉ hashes db) ∧
    ((∀ data ∈ dataset, get_scenario_hash md5hex data ∈ hashes db) →
        insert_pending_scenarios md5hex dataset now db = db) ∧
    (∀ n : Nat,
        ((fun d => insert_pending_scenarios md5hex dataset now d)^[n] []).length ≤
          (dataset.map (get_scenario_hash md5hex)).dedup.length) := by
  refine ⟨fun data hd habs => pending_row_created hd habs, ?_, ?_, ?_⟩
  · obtain ⟨new, hnew, hprop⟩ := insert_pending_is_append md5hex dataset now db
    exact ⟨new, hnew, fun r hr => (hprop r hr).2.2⟩
  · intro hall
    induction dataset generalizing db with
    | nil => rfl
    | cons d rest ih =>
        have hstep : insert_pending_scenarios md5hex (d :: rest) now db =
            insert_pending_scenarios md5hex rest now
              (insert_or_ignore_pending (get_scenario_hash md5hex d) now db) := rfl
        rw [hstep, insert_or_ignore_of_mem (hall d (by simp))]
        exact ih db (fun data hd => hall data (List.mem_cons_of_mem _ hd))
  · intro n
    have key : ∀ m : Nat,
        (hashes ((fun d => insert_pending_scenarios md5hex dataset now d)^[m] [])).Nodup ∧
        ∀ x ∈ hashes ((fun d => insert_pending_scenarios md5hex dataset now d)^[m] []),
          x ∈ dataset.map (get_scenario_hash md5hex) := by
      intro m
      induction m with
      | zero => simp [hashes]
      | succ k ihk =>
          rw [Function.iterate_succ_apply']
          refine ⟨nodup_hashes_insert_pending ihk.1, fun x hx => ?_⟩
          rcases mem_hashes_insert_pending.mp hx with hx | hx
          · exact ihk.2 x hx
          · exact hx
    obtain ⟨hnd, hsub⟩ := key n
    have hlen : ((fun d => insert_pending_scenarios md5hex dataset now d)^[n] []).length =
        (hashes ((fun d => insert_pending_scenarios md5hex dataset now d)^[n] [])).length := by
      simp [hashes]
    rw [hlen, ← List.toFinset_card_of_nodup hnd, ← List.card_toFinset]
    exact Finset.card_le_card (fun x hx => List.mem_toFinset.mpr (hsub x (List.mem_toFinset.mp hx)))

/-- Witness for C7 at a concrete dataset and ledger. -/
theorem C7_insert_pending_idempotent_witness :
    (∀ data ∈ [[("a", JVal.null)]], get_scenario_hash (fun _ => "H") data ∉ hashes [] →
        ∃ r ∈ insert_pending_scenarios (fun _ => "H") [[("a", JVal.null)]] 3 [],
          r.scenario_hash = get_scenario_hash (fun _ => "H") data ∧
            r.status = "pending" ∧ r.result = none) ∧
    (∃ new, insert_pending_scenarios (fun _ => "H") [[("a", JVal.null)]] 3 [] = [] ++ new ∧
        ∀ r ∈ new, r.scenario_hash ∉ hashes []) ∧
    ((∀ data ∈ [[("a", JVal.null)]], get_scenario_hash (fun _ => "H") data ∈ hashes []) →
        insert_pending_scenarios (fun _ => "H") [[("a", JVal.null)]] 3 [] = []) ∧
    (∀ n : Nat,
        ((fun d => insert_pending_scenarios (fun _ => "H") [[("a", JVal.null)]] 3 d)^[n] []).length ≤
          ([[("a", JVal.null)]].map (get_scenario_hash (fun _ => "H"))).dedup.length) :=
  C7_insert_pending_idempotent (fun _ => "H") [[("a", JVal.null)]] 3 []

/-! ### Claim C8 -/

/-- C8: after mark_failed on a hash that has a ledger row, followed by
reset_failed_to_pending, the scenario appears in get_pending, does not
appear in get_failed, its stored result is cleared, and the reset call
returns the number of rows whose status was failed at the time of the
call. -/
theorem C8_reset_after_mark_failed (md5hex : String → String) (dataset : List Scenario)
    (data : Scenario) (db : DB) (err : String) (n1 n2 : Nat)
    (hd : data ∈ dataset)
    (hrow : ∃ r ∈ db, r.scenario_hash = get_scenario_hash md5hex data) :
    data ∈ get_pending_scenarios md5hex dataset
      (reset_failed_to_pending n2 (mark_failed (get_scenario_hash md5hex data) err n1 db)).2 ∧
    data ∉ get_failed_scenarios md5hex dataset
      (reset_failed_to_pending n2 (mark_failed (get_scenario_hash md5hex data) err n1 db)).2 ∧
    (∀ r ∈ (reset_failed_to_pending n2 (mark_failed (get_scenario_hash md5hex data) err n1 db)).2,
        r.scenario_hash = get_scenario_hash md5hex data → r.result = none) ∧
    (reset_failed_to_pending n2 (mark_failed (get_scenario_hash md5hex data) err n1 db)).1 =
      ((mark_failed (get_scenario_hash md5hex data) err n1 db).filter
        (fun r => r.status == "failed")).length := by
  obtain ⟨r0, hr0, hh0⟩ := hrow
  set h := get_scenario_hash md5hex data with hh
  -- the image of r0 after mark_failed is a failed row with hash h
  have hfail : ∀ r ∈ mark_failed h err n1 db, r.scenario_hash = h → r.status = "failed" := by
    intro r hr hrh
    unfold mark_failed at hr
    obtain ⟨s, hs, hmap⟩ := List.mem_map.mp hr
    by_cases hsh : s.scenario_hash = h
    · rw [← hmap, if_pos (by simp [hsh])]
    · rw [← hmap, if_neg (by simp [hsh])] at hrh ⊢
      exact absurd hrh hsh
  have hmem1 : ∃ r ∈ mark_failed h err n1 db, r.scenario_hash = h ∧ r.status = "failed" := by
    unfold mark_failed
    refine ⟨_, List.mem_map.mpr ⟨r0, hr0, rfl⟩, ?_⟩
    simp [hh0]
  -- after reset every previously failed row is pending with result cleared
  have hreset : ∀ r ∈ (reset_failed_to_pending n2 (mark_failed h err n1 db)).2,
      r.status ≠ "failed" := by
    intro r hr
    unfold reset_failed_to_pending at hr
    obtain ⟨s, hs, hmap⟩ := List.mem_map.mp hr
    by_cases hsf : s.status = "failed"
    · rw [← hmap, if_pos (by simp [hsf])]
      simp
    · rw [← hmap, if_neg (by simp [hsf])]
      exact hsf
  refine ⟨?_, ?_, ?_, ?_⟩
  · obtain ⟨r1, hr1, hr1h, hr1f⟩ := hmem1
    unfold get_pending_scenarios reset_failed_to_pending
    refine List.mem_filter.mpr ⟨hd, ?_⟩
    refine List.any_eq_true.mpr ⟨_, List.mem_map.mpr ⟨r1, hr1, rfl⟩, ?_⟩
    simp [hr1f, hr1h, ← hh]
  · intro hc
    obtain ⟨-, hany⟩ := List.mem_filter.mp hc
    obtain ⟨r, hr, hcond⟩ := List.any_eq_true.mp hany
    have : r.status = "failed" := by
      have := (Bool.and_eq_true _ _).mp hcond |>.2
      simpa using this
    exact hreset r hr this
  · intro r hr hrh
    unfold reset_failed_to_pending at hr
    obtain ⟨s, hs, hmap⟩ := List.mem_map.mp hr
    have hsh : s.scenario_hash = h := by
      by_cases hx : s.status = "failed"
      · rw [← hmap, if_pos (by simp [hx])] at hrh
        exact hrh
      · rw [← hmap, if_neg (by simp [hx])] at hrh
        exact hrh
    have hsf : s.status = "failed" := hfail s hs hsh
    rw [← hmap, if_pos (by simp [hsf])]
  · unfold reset_failed_to_pending
    exact List.countP_eq_length_filter _ _

/-- Witness for C8 at a concrete scenario and one-row ledger. -/
theorem C8_reset_after_mark_failed_witness :
    ([("a", JVal.null)] ∈ [[("a", JVal.null)]] ∧
      ∃ r ∈ [(⟨"H", "pending", none, 0, 0⟩ : Row)],
        r.scenario_hash = get_scenario_hash (fun _ => "H") [("a", JVal.null)]) ∧
    [("a", JVal.null)] ∈ get_pending_scenarios (fun _ => "H") [[("a", JVal.null)]]
      (reset_failed_to_pending 2 (mark_failed (get_scenario_hash (fun _ => "H") [("a", JVal.null)])
        "boom" 1 [⟨"H", "pending", none, 0, 0⟩])).2 :=
  ⟨⟨List.mem_singleton.mpr rfl, ⟨"H", "pending", none, 0, 0⟩, List.mem_singleton.mpr rfl, rfl⟩,
    (C8_reset_after_mark_failed (fun _ => "H") [[("a", JVal.null)]] [("a", JVal.null)]
      [⟨"H", "pending", none, 0, 0⟩] "boom" 1 2 (List.mem_singleton.mpr rfl)
      ⟨⟨"H", "pending", none, 0, 0⟩, List.mem_singleton.mpr rfl, rfl⟩).1⟩

/-! ### Claim C10 -/

/-- C10: mark_completed or mark_failed for a scenario hash that has no
row in the ledger leaves the ledger completely unchanged. -/
theorem C10_mark_absent_hash_frame (db : DB) (h res err : String) (now : Nat)
    (habs : ∀ r ∈ db, r.scenario_hash ≠ h) :
    mark_completed h res now db = db ∧ mark_failed h err now db = db :=
  ⟨map_update_no_match db h _ habs, map_update_no_match db h _ habs⟩

/-- Witness for C10 at a concrete one-row ledger and an absent hash. -/
theorem C10_mark_absent_hash_frame_witness :
    (∀ r ∈ [(⟨"h1", "pending", none, 0, 0⟩ : Row)], r.scenario_hash ≠ "h2") ∧
    mark_completed "h2" "res" 9 [⟨"h1", "pending", none, 0, 0⟩] =
      [⟨"h1", "pending", none, 0, 0⟩] ∧
    mark_failed "h2" "err" 9 [⟨"h1", "pending", none, 0, 0⟩] =
      [⟨"h1", "pending", none, 0, 0⟩] :=
  ⟨by decide, C10_mark_absent_hash_frame [⟨"h1", "pending", none, 0, 0⟩] "h2" "res" "err" 9
    (by decide)⟩

/-! ### Claim C2 -/

theorem run_probs_invariant (params : PersonaParams)
    (hbm : params.base_prob ≤ params.max_prob) (hb0 : 0 ≤ params.base_prob)
    (hd1 : params.decay ≤ 1) (hr0 : 0 ≤ params.recovery_step) :
    ∀ seq : List SpeakerKind, ∀ p : ℚ, params.base_prob ≤ p → p ≤ params.max_prob →
      params.base_prob ≤ seq.foldl (update_prob params) p ∧
        seq.foldl (update_prob params) p ≤ params.max_prob := by
  intro seq
  induction seq with
  | nil => intro p h1 h2; exact ⟨h1, h2⟩
  | cons k rest ih =>
      intro p h1 h2
      simp only [List.foldl_cons]
      refine ih _ ?_ ?_
      · cases k with
        | persona => exact le_max_left _ _
        | character => exact le_min hbm (le_trans h1 (le_add_of_nonneg_right hr0))
      · cases k with
        | persona =>
            refine max_le hbm ?_
            calc p * params.decay ≤ p * 1 :=
                  mul_le_mul_of_nonneg_left hd1 (le_trans hb0 h1)
              _ = p := mul_one p
              _ ≤ params.max_prob := h2
        | character => exact min_le_left _ _

/-- C2 counterexample: assuming only base_prob ≤ max_prob, the bound
fails — with base_prob = 0, max_prob = 1, decay = 2, recovery_step = 1,
a character turn followed by a persona turn drives p to 2 > max_prob. -/
theorem C2_counterexample :
    ((0 : ℚ) ≤ 1) ∧
    run_probs ⟨"", 0, 1, 2, 1⟩ [SpeakerKind.character, SpeakerKind.persona] = 2 ∧
    ¬ run_probs ⟨"", 0, 1, 2, 1⟩ [SpeakerKind.character, SpeakerKind.persona] ≤ 1 := by
  refine ⟨by norm_num, ?_, ?_⟩ <;>
    norm_num [run_probs, update_prob]

/-- C2 (amended): under the PersonaParams constraints the spec itself
states — base_prob ≤ max_prob, decay in (0,1), recovery_step > 0 — plus
nonnegativity of base_prob, the intervention probability initialized to
base_prob and updated once per turn stays within the inclusive interval
from base_prob to max_prob after every turn (every turn sequence,
prefixes included, is an instance of seq). -/
theorem C2_prob_within_bounds (params : PersonaParams) (seq : List SpeakerKind)
    (hbm : params.base_prob ≤ params.max_prob) (hb0 : 0 ≤ params.base_prob)
    (hd0 : 0 < params.decay) (hd1 : params.decay < 1)
    (hr : 0 < params.recovery_step) :
    params.base_prob ≤ run_probs params seq ∧ run_probs params seq ≤ params.max_prob :=
  run_probs_invariant params hbm hb0 hd1.le hr.le seq params.base_prob le_rfl hbm

/-- Witness for C2 at the spec §8 parameters and a two-turn sequence. -/
theorem C2_prob_within_bounds_witness :
    ((1 : ℚ)/10 ≤ 1/2 ∧ (0 : ℚ) ≤ 1/10 ∧ (0 : ℚ) < 2/5 ∧ (2 : ℚ)/5 < 1 ∧ (0 : ℚ) < 1/20) ∧
    (1 : ℚ)/10 ≤ run_probs ⟨"", 1/10, 1/2, 2/5, 1/20⟩
        [SpeakerKind.character, SpeakerKind.persona] ∧
      run_probs ⟨"", 1/10, 1/2, 2/5, 1/20⟩
        [SpeakerKind.character, SpeakerKind.persona] ≤ 1/2 :=
  ⟨⟨by norm_num, by norm_num, by norm_num, by norm_num, by norm_num⟩,
    C2_prob_within_bounds ⟨"", 1/10, 1/2, 2/5, 1/20⟩
      [SpeakerKind.character, SpeakerKind.persona]
      (by norm_num) (by norm_num) (by norm_num) (by norm_num) (by norm_num)⟩

/-! ### Claim C9 -/

/-- C9: at turn index 0 the selected speaker is role index 0, the first
designated character, independent of every random draw and of p_prob,
and it is not the persona as long as the persona name is not also a
character name. -/
theorem C9_turn_zero_first_character (characters : List String) (p_name : String)
    (p_prob : ℚ) (histories : List HistEntry) (d : Draws) (c : String)
    (hc : characters.head? = some c) (hp : p_name ∉ characters) :
    select_speaker 0 (parse_role characters p_name) p_name p_prob characters.length
        histories d = Except.ok c ∧ c ≠ p_name := by
  cases characters with
  | nil => simp at hc
  | cons a rest =>
      simp only [List.head?_cons, Option.some.injEq] at hc
      subst hc
      refine ⟨by simp [select_speaker, parse_role], fun hcp => ?_⟩
      exact hp (by rw [← hcp]; exact List.mem_cons_self _ _)

/-- Witness for C9 at a concrete cast and arbitrary draws. -/
theorem C9_turn_zero_first_character_witness :
    ((["A", "B"] : List String).head? = some "A" ∧ "P" ∉ (["A", "B"] : List String)) ∧
    select_speaker 0 (parse_role ["A", "B"] "P") "P" 0 (["A", "B"] : List String).length
        [] ⟨0, 0, 0, 0⟩ = Except.ok "A" ∧ "A" ≠ "P" :=
  ⟨⟨rfl, by decide⟩,
    C9_turn_zero_first_character ["A", "B"] "P" 0 [] ⟨0, 0, 0, 0⟩ "A" rfl (by decide)⟩

/-! ### Claim C4 -/

theorem zip_self_map {α β : Type} (f : α → β) :
    ∀ l : List α, ∀ p ∈ l.zip (l.map f), p.2 = f p.1 := by
  intro l
  induction l with
  | nil => simp
  | cons a t ih =>
      intro p hp
      rw [List.map_cons, List.zip_cons_cons] at hp
      rcases List.mem_cons.mp hp with rfl | hp
      · rfl
      · exact ih p hp

/-- C4 counterexample: a request whose awaitable was cancelled before
dispatch is left cancelled, not resolved with the empty string. -/
theorem C4_counterexample :
    runner_dispatch (Except.error "boom") [Fut.pending, Fut.cancelled] =
      [Fut.resolved "", Fut.cancelled] ∧
    (Fut.cancelled : Fut) ≠ Fut.resolved "" := by decide

/-- C4 (amended): if the bulk completion call raises, the dispatch step
returns normally (no exception reaches any caller of put) and resolves
every request in the batch whose awaitable has not been cancelled with
the empty string, leaving cancelled awaitables untouched. -/
theorem C4_error_batch_resolved_empty (e : String) (futures : List Fut) :
    (runner_dispatch (Except.error e) futures).length = futures.length ∧
    ∀ p ∈ futures.zip (runner_dispatch (Except.error e) futures),
      (p.1 ≠ Fut.cancelled → p.2 = Fut.resolved "") ∧
      (p.1 = Fut.cancelled → p.2 = Fut.cancelled) := by
  unfold runner_dispatch
  refine ⟨by simp, fun p hp => ?_⟩
  have h2 := zip_self_map (fun f =>
    match f with
    | Fut.cancelled => Fut.cancelled
    | _ => Fut.resolved "") futures p hp
  constructor
  · intro hnc
    rw [h2]
    cases hpf : p.1 with
    | pending => rfl
    | cancelled => exact absurd hpf hnc
    | resolved s => rfl
  · intro hc
    rw [h2, hc]

/-- Witness for C4 at a concrete two-future batch. -/
theorem C4_error_batch_resolved_empty_witness :
    (runner_dispatch (Except.error "boom") [Fut.pending, Fut.cancelled]).length =
      ([Fut.pending, Fut.cancelled] : List Fut).length ∧
    ∀ p ∈ ([Fut.pending, Fut.cancelled] : List Fut).zip
        (runner_dispatch (Except.error "boom") [Fut.pending, Fut.cancelled]),
      (p.1 ≠ Fut.cancelled → p.2 = Fut.resolved "") ∧
      (p.1 = Fut.cancelled → p.2 = Fut.cancelled) :=
  C4_error_batch_resolved_empty "boom" [Fut.pending, Fut.cancelled]

/-! ### Claims C1 and C6: the generation loop -/

theorem run_turns_none_iff (outs : List TurnOut) :
    ∀ t : Nat, (run_turns outs t = none ↔ ∃ e, TurnOut.personaErr e ∈ outs) := by
  induction outs with
  | nil => intro t; simp [run_turns]
  | cons o rest ih =>
      intro t
      cases o with
      | personaOk s => simp [run_turns, ih (t + 1)]
      | personaErr e =>
          constructor
          · intro _
            exact ⟨e, List.mem_cons_self _ _⟩
          · intro _
            rfl
      | charRes s =>
          by_cases hs : s = "" <;> simp [run_turns, hs, ih (t + 1)]

theorem run_turns_indices (outs : List TurnOut) :
    ∀ t : Nat, ∀ hs : List (Nat × String), run_turns outs t = some hs →
      (∀ x ∈ hs.map Prod.fst, t ≤ x) ∧ List.Pairwise (· < ·) (hs.map Prod.fst) := by
  induction outs with
  | nil =>
      intro t hs h
      simp only [run_turns, Option.some.injEq] at h
      subst h
      simp
  | cons o rest ih =>
      intro t hs h
      have step : ∀ s : String, (run_turns rest (t + 1)).map (fun l => (t, s) :: l) = some hs →
          (∀ x ∈ hs.map Prod.fst, t ≤ x) ∧ List.Pairwise (· < ·) (hs.map Prod.fst) := by
        intro s hmap
        cases hr : run_turns rest (t + 1) with
        | none => rw [hr] at hmap; simp at hmap
        | some hs2 =>
            rw [hr] at hmap
            have hmap2 : (t, s) :: hs2 = hs := by simpa using hmap
            subst hmap2
            obtain ⟨hb, hp⟩ := ih (t + 1) hs2 hr
            refine ⟨?_, ?_⟩
            · intro x hx
              simp only [List.map_cons, List.mem_cons] at hx
              rcases hx with rfl | hx
              · exact le_rfl
              · exact le_trans (Nat.le_succ t) (hb x hx)
            · simp only [List.map_cons]
              refine List.Pairwise.cons ?_ hp
              intro y hy
              exact lt_of_lt_of_le (Nat.lt_succ_self t) (hb y hy)
      cases o with
      | personaOk s => exact step s h
      | personaErr e => simp [run_turns] at h
      | charRes s =>
          by_cases hsz : s = ""
          · rw [show run_turns (TurnOut.charRes s :: rest) t = run_turns rest (t + 1) by
              simp [run_turns, hsz]] at h
            obtain ⟨hb, hp⟩ := ih (t + 1) hs h
            exact ⟨fun x hx => le_trans (Nat.le_succ t) (hb x hx), hp⟩
          · refine step s ?_
            rw [show run_turns (TurnOut.charRes s :: rest) t =
              (run_turns rest (t + 1)).map (fun l => (t, s) :: l) by
                simp [run_turns, hsz]] at h
            exact h

/-- C1 counterexample: a run whose only turn raises inside the persona
collaborator call returns the empty result, yet the pending ledger row
is left untouched — its status never becomes failed. -/
theorem C1_counterexample :
    generate_conversation [TurnOut.personaErr "boom"] = ConvOutcome.emptyResult ∧
    generate_conversation_db [TurnOut.personaErr "boom"] "H" "res" 7
        [⟨"H", "pending", none, 0, 0⟩] = [⟨"H", "pending", none, 0, 0⟩] ∧
    ∀ r ∈ generate_conversation_db [TurnOut.personaErr "boom"] "H" "res" 7
        [⟨"H", "pending", none, 0, 0⟩], r.status ≠ "failed" := by decide

/-- C1 (amended): a persona-generation collaborator error aborts the
whole scenario — generate_conversation returns the empty dict and no
record is assembled — but the ledger is left completely unchanged: the
handler swallows the exception before the outer mark_failed handler can
run, so the scenario is never recorded as a failed job. -/
theorem C1_persona_error_aborts_without_failed_mark (outs : List TurnOut)
    (h res : String) (now : Nat) (db : DB)
    (herr : ∃ e, TurnOut.personaErr e ∈ outs) :
    generate_conversation outs = ConvOutcome.emptyResult ∧
    generate_conversation_db outs h res now db = db := by
  have hnone : run_turns outs 0 = none := (run_turns_none_iff outs 0).mpr herr
  constructor <;> simp [generate_conversation, generate_conversation_db, hnone]

/-- Witness for C1 at a one-turn run over a one-row ledger. -/
theorem C1_persona_error_aborts_without_failed_mark_witness :
    (∃ e, TurnOut.personaErr e ∈ [TurnOut.personaErr "boom"]) ∧
    generate_conversation [TurnOut.personaErr "boom"] = ConvOutcome.emptyResult ∧
    generate_conversation_db [TurnOut.personaErr "boom"] "H" "res" 7
        [⟨"H", "pending", none, 0, 0⟩] = [⟨"H", "pending", none, 0, 0⟩] :=
  ⟨⟨"boom", by decide⟩,
    C1_persona_error_aborts_without_failed_mark [TurnOut.personaErr "boom"] "H" "res" 7
      [⟨"H", "pending", none, 0, 0⟩] ⟨"boom", by decide⟩⟩

/-- Does the loop record a turn with this outcome? -/
def records_turn : TurnOut → Bool
  | .personaOk _ => true
  | .personaErr _ => false
  | .charRes s => !(s == "")

/-- C6 counterexample: when turn 0 is skipped for an empty character
generation result, the produced record's first index is 1, not 0. -/
theorem C6_counterexample :
    generate_conversation [TurnOut.charRes "", TurnOut.charRes "hi"] =
      ConvOutcome.completed [(1, "hi")] ∧ (1 : Nat) ≠ 0 := by decide

/-- C6 (amended): in every completed record the recorded indices are
strictly increasing; the first recorded index is 0 exactly when turn 0
itself was recorded — a persona success or a nonempty character result —
while a run whose turn 0 was skipped yields a (nonempty) record every
one of whose indices exceeds 0, so its first index exceeds 0. -/
theorem C6_indices_strictly_increasing (outs : List TurnOut) (hs : List (Nat × String))
    (h : generate_conversation outs = ConvOutcome.completed hs) :
    List.Pairwise (· < ·) (hs.map Prod.fst) ∧
    hs ≠ [] ∧
    (∀ o : TurnOut, outs.head? = some o →
      (records_turn o = true → (hs.map Prod.fst).head? = some 0) ∧
      (records_turn o = false → ∀ x ∈ hs.map Prod.fst, 0 < x)) := by
  have hrun : run_turns outs 0 = some hs ∧ hs ≠ [] := by
    unfold generate_conversation at h
    cases hr : run_turns outs 0 with
    | none => rw [hr] at h; cases h
    | some l =>
        rw [hr] at h
        cases l with
        | nil => cases h
        | cons a t =>
            cases h
            exact ⟨rfl, by simp⟩
  refine ⟨(run_turns_indices outs 0 hs hrun.1).2, hrun.2, ?_⟩
  intro o ho
  cases outs with
  | nil => cases ho
  | cons o0 rest =>
      simp only [List.head?_cons, Option.some.injEq] at ho
      subst ho
      obtain ⟨hrun1, -⟩ := hrun
      cases o0 with
      | personaOk s =>
          refine ⟨?_, ?_⟩
          · intro _
            simp only [run_turns] at hrun1
            cases hr : run_turns rest 1 with
            | none => rw [hr] at hrun1; cases hrun1
            | some hs2 => rw [hr] at hrun1; cases hrun1; rfl
          · intro hrec
            simp [records_turn] at hrec
      | personaErr e =>
          simp only [run_turns] at hrun1
          cases hrun1
      | charRes s =>
          by_cases hsz : s = ""
          · refine ⟨?_, ?_⟩
            · intro hrec
              rw [hsz] at hrec
              simp [records_turn] at hrec
            · intro _
              -- turn 0 skipped: the loop records from index 1 onward
              simp only [run_turns, if_pos hsz] at hrun1
              intro x hx
              exact lt_of_lt_of_le Nat.zero_lt_one
                ((run_turns_indices rest 1 hs hrun1).1 x hx)
          · refine ⟨?_, ?_⟩
            · intro _
              simp only [run_turns, if_neg hsz] at hrun1
              cases hr : run_turns rest 1 with
              | none => rw [hr] at hrun1; cases hrun1
              | some hs2 => rw [hr] at hrun1; cases hrun1; rfl
            · intro hrec
              simp [records_turn, hsz] at hrec

/-- Witness for C6 at a two-turn run whose first turn is recorded. -/
theorem C6_indices_strictly_increasing_witness :
    generate_conversation [TurnOut.charRes "hi", TurnOut.personaOk "yo"] =
      ConvOutcome.completed [(0, "hi"), (1, "yo")] ∧
    List.Pairwise (· < ·) (([(0, "hi"), (1, "yo")] : List (Nat × String)).map Prod.fst) ∧
    ([(0, "hi"), (1, "yo")] : List (Nat × String)) ≠ [] ∧
    (∀ o : TurnOut, ([TurnOut.charRes "hi", TurnOut.personaOk "yo"] : List TurnOut).head? = some o →
      (records_turn o = true →
        (([(0, "hi"), (1, "yo")] : List (Nat × String)).map Prod.fst).head? = some 0) ∧
      (records_turn o = false →
        ∀ x ∈ ([(0, "hi"), (1, "yo")] : List (Nat × String)).map Prod.fst, 0 < x)) :=
  ⟨by decide,
    C6_indices_strictly_increasing [TurnOut.charRes "hi", TurnOut.personaOk "yo"]
      [(0, "hi"), (1, "yo")] (by decide)⟩

/-! ### Claim C3 -/

theorem serializeKvs_eq_map (l : List (String × JVal)) :
    serializeKvs l = l.map (fun kv => (kv.1, serialize kv.2)) := by
  induction l with
  | nil => rfl
  | cons kv rest ih =>
      cases kv
      simp [serializeKvs, ih]

theorem serializeKvs_keys (l : List (String × JVal)) :
    (serializeKvs l).map Prod.fst = l.map Prod.fst := by
  rw [serializeKvs_eq_map, List.map_map]
  rfl

theorem insertByKey_perm (x : String × String) (l : List (String × String)) :
    (insertByKey x l).Perm (x :: l) := by
  induction l with
  | nil => exact List.Perm.refl _
  | cons y ys ih =>
      unfold insertByKey
      by_cases hxy : x.1 ≤ y.1
      · rw [if_pos hxy]
      · rw [if_neg hxy]
        exact (ih.cons y).trans (List.Perm.swap x y ys)

theorem sortByKey_perm (l : List (String × String)) : (sortByKey l).Perm l := by
  induction l with
  | nil => exact List.Perm.refl _
  | cons x xs ih =>
      have : sortByKey (x :: xs) = insertByKey x (sortByKey xs) := rfl
      rw [this]
      exact (insertByKey_perm x (sortByKey xs)).trans (ih.cons x)

theorem insertByKey_sorted (x : String × String) (l : List (String × String))
    (hl : l.Pairwise (fun a b => a.1 ≤ b.1)) :
    (insertByKey x l).Pairwise (fun a b => a.1 ≤ b.1) := by
  induction l with
  | nil => simp [insertByKey]
  | cons y ys ih =>
      obtain ⟨hy, hys⟩ := List.pairwise_cons.mp hl
      unfold insertByKey
      by_cases hxy : x.1 ≤ y.1
      · rw [if_pos hxy]
        refine List.pairwise_cons.mpr ⟨?_, hl⟩
        intro b hb
        rcases List.mem_cons.mp hb with rfl | hb
        · exact hxy
        · exact le_trans hxy (hy b hb)
      · rw [if_neg hxy]
        refine List.pairwise_cons.mpr ⟨?_, ih hys⟩
        intro b hb
        have hb2 : b ∈ x :: ys := (insertByKey_perm x ys).mem_iff.mp hb
        rcases List.mem_cons.mp hb2 with rfl | hb2
        · exact le_of_not_le hxy
        · exact hy b hb2

theorem sortByKey_sorted (l : List (String × String)) :
    (sortByKey l).Pairwise (fun a b => a.1 ≤ b.1) := by
  induction l with
  | nil => simp [sortByKey]
  | cons x xs ih => exact insertByKey_sorted x (sortByKey xs) ih

theorem sorted_nodupkeys_perm_eq :
    ∀ l1 l2 : List (String × String),
      l1.Pairwise (fun a b => a.1 ≤ b.1) → l2.Pairwise (fun a b => a.1 ≤ b.1) →
      (l1.map Prod.fst).Nodup → l1.Perm l2 → l1 = l2 := by
  intro l1
  induction l1 with
  | nil =>
      intro l2 _ _ _ hp
      exact (hp.symm.eq_nil).symm
  | cons x t1 ih =>
      intro l2 hs1 hs2 hnd hp
      cases l2 with
      | nil => cases hp.eq_nil
      | cons y t2 =>
          by_cases hxy : x = y
          · subst hxy
            have hnd2 : (t1.map Prod.fst).Nodup := by
              simp only [List.map_cons, List.nodup_cons] at hnd
              exact hnd.2
            rw [ih t2 (List.pairwise_cons.mp hs1).2 (List.pairwise_cons.mp hs2).2
              hnd2 hp.cons_inv]
          · have hx2 : x ∈ y :: t2 := hp.subset (List.mem_cons_self _ _)
            have hy1 : y ∈ x :: t1 := hp.symm.subset (List.mem_cons_self _ _)
            have hx2m : x ∈ t2 := by
              rcases List.mem_cons.mp hx2 with h | h
              · exact absurd h hxy
              · exact h
            have hy1m : y ∈ t1 := by
              rcases List.mem_cons.mp hy1 with h | h
              · exact absurd h.symm hxy
              · exact h
            have h1 : x.1 ≤ y.1 := (List.pairwise_cons.mp hs1).1 y hy1m
            have h2 : y.1 ≤ x.1 := (List.pairwise_cons.mp hs2).1 x hx2m
            have hk : x.1 = y.1 := le_antisymm h1 h2
            have hmem : x.1 ∈ t1.map Prod.fst := by
              rw [hk]
              exact List.mem_map.mpr ⟨y, hy1m, rfl⟩
            simp only [List.map_cons, List.nodup_cons] at hnd
            exact absurd hmem hnd.1

/-- C3: two scenario dicts holding the same key-value pairs, in any
insertion order (with keys unique, as dict keys are), hash to the same
string: the sort_keys=True canonicalization erases the ordering before
the digest is taken. -/
theorem C3_hash_independent_of_key_order (md5hex : String → String) (d1 d2 : Scenario)
    (hnd : (d1.map Prod.fst).Nodup) (hperm : d1.Perm d2) :
    get_scenario_hash md5hex d1 = get_scenario_hash md5hex d2 := by
  unfold get_scenario_hash json_dumps_sorted
  congr 1
  have hkey : sortByKey (serializeKvs d1) = sortByKey (serializeKvs d2) := by
    refine sorted_nodupkeys_perm_eq _ _ (sortByKey_sorted _) (sortByKey_sorted _) ?_ ?_
    · have hpm := (sortByKey_perm (serializeKvs d1)).map Prod.fst
      rw [serializeKvs_keys] at hpm
      exact hpm.nodup_iff.mpr hnd
    · have hmap := hperm.map (fun kv => (kv.1, serialize kv.2))
      rw [← serializeKvs_eq_map, ← serializeKvs_eq_map] at hmap
      exact ((sortByKey_perm _).trans hmap).trans (sortByKey_perm _).symm
  simp only [serialize]
  rw [hkey]

/-- Witness for C3 at a concrete two-key scenario and its swap. -/
theorem C3_hash_independent_of_key_order_witness :
    (([("b", JVal.num 1), ("a", JVal.str "x")].map Prod.fst).Nodup ∧
      ([("b", JVal.num 1), ("a", JVal.str "x")] : Scenario).Perm
        [("a", JVal.str "x"), ("b", JVal.num 1)]) ∧
    get_scenario_hash (fun s => s) [("b", JVal.num 1), ("a", JVal.str "x")] =
      get_scenario_hash (fun s => s) [("a", JVal.str "x"), ("b", JVal.num 1)] :=
  ⟨⟨by simp, List.Perm.swap ("a", JVal.str "x") ("b", JVal.num 1) []⟩,
    C3_hash_independent_of_key_order (fun s => s)
      [("b", JVal.num 1), ("a", JVal.str "x")] [("a", JVal.str "x"), ("b", JVal.num 1)]
      (by simp) (List.Perm.swap ("a", JVal.str "x") ("b", JVal.num 1) [])⟩

/-! ### Claim C5 -/

theorem extract_tags_cons_open_some {rest inner after : List Char}
    (h : split_close rest = some (inner, after)) :
    extract_tags ('[' :: rest) =
      if inner.isEmpty then extract_tags rest
      else (⟨inner⟩ : String) :: extract_tags after := by
  simp only [extract_tags]
  split
  · split
    · rename_i i a hsome
      rw [h] at hsome
      injection hsome with hsome
      cases hsome
      rfl
    · rename_i hnone
      rw [h] at hnone
      cases hnone
  · rename_i hfalse
    simp at hfalse

theorem extract_tags_cons_open_none {rest : List Char} (h : split_close rest = none) :
    extract_tags ('[' :: rest) = [] := by
  simp only [extract_tags]
  split
  · split
    · rename_i i a hsome
      rw [h] at hsome
      cases hsome
    · rfl
  · rename_i hfalse
    simp at hfalse

theorem extract_tags_cons_other {c : Char} {rest : List Char} (hc : ¬ c = '[') :
    extract_tags (c :: rest) = extract_tags rest := by
  rw [extract_tags.eq_def]
  simp [hc]

theorem strip_tokens_cons_open_some {rest inner after : List Char}
    (h : split_close rest = some (inner, after)) :
    strip_tokens ('[' :: rest) =
      if inner.isEmpty then '[' :: strip_tokens rest else strip_tokens after := by
  simp only [strip_tokens]
  split
  · split
    · rename_i i a hsome
      rw [h] at hsome
      injection hsome with hsome
      cases hsome
      rfl
    · rename_i hnone
      rw [h] at hnone
      cases hnone
  · rename_i hfalse
    simp at hfalse

theorem strip_tokens_cons_open_none {rest : List Char} (h : split_close rest = none) :
    strip_tokens ('[' :: rest) = '[' :: rest := by
  simp only [strip_tokens]
  split
  · split
    · rename_i i a hsome
      rw [h] at hsome
      cases hsome
    · rfl
  · rename_i hfalse
    simp at hfalse

theorem strip_tokens_cons_other {c : Char} {rest : List Char} (hc : ¬ c = '[') :
    strip_tokens (c :: rest) = c :: strip_tokens rest := by
  rw [strip_tokens.eq_def]
  simp [hc]

theorem full_tag_inj {u v : String} (h : full_tag u = full_tag v) : u = v := by
  unfold full_tag at h
  have hd := congrArg String.data h
  simp only [String.data_append] at hd
  exact String.ext (List.append_cancel_left (List.append_cancel_right hd))

theorem emotion_not_next {t : String} (h : is_emotion_tag t = true) :
    is_next_tag t = false := by
  unfold is_emotion_tag startswith at h
  unfold is_next_tag startswith
  rw [List.isPrefixOf_iff_prefix] at h
  by_contra hc
  rw [Bool.not_eq_false, List.isPrefixOf_iff_prefix] at hc
  obtain ⟨r1, hr1⟩ := h
  obtain ⟨r2, hr2⟩ := hc
  rw [← hr1] at hr2
  have h1 : ("next:".data ++ r2).head? = some 'n' := rfl
  have h2 : ("emotion:".data ++ r1).head? = some 'e' := rfl
  rw [hr2, h2] at h1
  exact absurd h1 (by decide)

theorem spec_emotion_isNone (pre : List String) :
    (spec_emotion pre).isNone = !(pre.any is_emotion_tag) := by
  unfold spec_emotion
  cases hany : pre.any is_emotion_tag with
  | false =>
      rw [List.find?_eq_none.mpr (fun x hx => by
        have := List.any_eq_false.mp hany x hx
        simpa using this)]
      rfl
  | true =>
      have hsome : (pre.find? is_emotion_tag).isSome :=
        List.find?_isSome.mpr (List.any_eq_true.mp hany)
      cases hf : pre.find? is_emotion_tag with
      | none => rw [hf] at hsome; cases hsome
      | some y => simp [hf]

theorem spec_next_eq_default (pre : List String) :
    (spec_next pre == "[next:user_00]") =
      !(pre.any (fun u => is_next_tag u && u != "next:user_00")) := by
  unfold spec_next
  cases hany : pre.any (fun u => is_next_tag u && u != "next:user_00") with
  | false =>
      rw [List.find?_eq_none.mpr (fun x hx => by
        have := List.any_eq_false.mp hany x hx
        simpa using this)]
      rfl
  | true =>
      have hsome : (pre.find? (fun u => is_next_tag u && u != "next:user_00")).isSome :=
        List.find?_isSome.mpr (List.any_eq_true.mp hany)
      cases hf : pre.find? (fun u => is_next_tag u && u != "next:user_00") with
      | none => rw [hf] at hsome; cases hsome
      | some y =>
          have hy := List.find?_some hf
          have hyne : y ≠ "next:user_00" := by
            intro hcc
            subst hcc
            simp at hy
          have hfull : full_tag y ≠ "[next:user_00]" := fun hc =>
            hyne (full_tag_inj (hc.trans rfl))
          show (full_tag y == "[next:user_00]") = !true
          simp only [Bool.not_true]
          exact beq_eq_false_iff_ne.mpr hfull

theorem spec_emotion_append (pre : List String) (t : String) :
    spec_emotion (pre ++ [t]) =
      if emotion_takes pre t then some (full_tag t) else spec_emotion pre := by
  unfold spec_emotion emotion_takes
  rw [List.find?_append]
  cases hf : pre.find? is_emotion_tag with
  | some y =>
      have hany : pre.any is_emotion_tag = true :=
        List.any_eq_true.mpr ⟨y, List.mem_of_find?_eq_some hf, List.find?_some hf⟩
      rw [hany]
      simp
  | none =>
      have hany : pre.any is_emotion_tag = false :=
        List.any_eq_false.mpr (fun x hx hpx => (List.find?_eq_none.mp hf x hx) hpx)
      rw [hany]
      cases het : is_emotion_tag t with
      | true => simp [List.find?, het]
      | false => simp [List.find?, het]

theorem spec_next_append (pre : List String) (t : String) :
    spec_next (pre ++ [t]) =
      if next_takes pre t then full_tag t else spec_next pre := by
  unfold spec_next next_takes
  rw [List.find?_append]
  cases hf : pre.find? (fun u => is_next_tag u && u != "next:user_00") with
  | some y =>
      have hy := List.find?_some hf
      have hany : pre.any (fun u => is_next_tag u && u != "next:user_00") = true :=
        List.any_eq_true.mpr ⟨y, List.mem_of_find?_eq_some hf, hy⟩
      rw [hany]
      simp
  | none =>
      have hany : pre.any (fun u => is_next_tag u && u != "next:user_00") = false :=
        List.any_eq_false.mpr (fun x hx hpx => (List.find?_eq_none.mp hf x hx) hpx)
      rw [hany]
      cases hqt : (is_next_tag t && t != "next:user_00") with
      | true =>
          have hnt : is_next_tag t = true := ((Bool.and_eq_true _ _).mp hqt).1
          have htd : (t != "next:user_00") = true := ((Bool.and_eq_true _ _).mp hqt).2
          simp [List.find?, hnt, htd]
      | false =>
          cases hnt : is_next_tag t with
          | false => simp [List.find?, hnt]
          | true =>
              have htd : (t != "next:user_00") = false := by
                rw [hnt] at hqt
                simpa using hqt
              have ht : t = "next:user_00" := by simpa using htd
              subst ht
              simp [List.find?, hnt]
              rfl

theorem find_role_echo_append_some :
    ∀ (xs prev : List String) (t s : String), find_role_echo prev xs = some s →
      find_role_echo prev (xs ++ [t]) = some s := by
  intro xs
  induction xs with
  | nil => intro prev t s h; cases h
  | cons x rest ih =>
      intro prev t s h
      rw [List.cons_append]
      unfold find_role_echo at h ⊢
      by_cases hx : (emotion_takes prev x || next_takes prev x) = true
      · rw [if_pos hx] at h ⊢
        exact ih (prev ++ [x]) t s h
      · rw [if_neg hx] at h ⊢
        exact h

theorem find_role_echo_append_none :
    ∀ (xs prev : List String) (t : String), find_role_echo prev xs = none →
      find_role_echo prev (xs ++ [t]) =
        (if emotion_takes (prev ++ xs) t || next_takes (prev ++ xs) t then none
         else some (full_tag t)) := by
  intro xs
  induction xs with
  | nil =>
      intro prev t _
      rw [List.nil_append, List.append_nil]
      unfold find_role_echo
      by_cases h : (emotion_takes prev t || next_takes prev t) = true
      · rw [if_pos h, if_pos h]
        rfl
      · rw [if_neg h, if_neg h]
  | cons x rest ih =>
      intro prev t h
      rw [List.cons_append]
      unfold find_role_echo at h ⊢
      by_cases hx : (emotion_takes prev x || next_takes prev x) = true
      · rw [if_pos hx] at h ⊢
        rw [ih (prev ++ [x]) t h]
        have hassoc : (prev ++ [x]) ++ rest = prev ++ x :: rest := by
          rw [List.append_assoc]
          rfl
        rw [hassoc]
      · rw [if_neg hx] at h
        cases h

theorem parse_tag_fold_spec (pre : List String) (t : String) :
    parse_tag_fold (spec_state pre) t = spec_state (pre ++ [t]) := by
  have hc1 : (startswith t "emotion:" && (spec_emotion pre).isNone) = emotion_takes pre t := by
    rw [spec_emotion_isNone]
    rfl
  have hc2 : (startswith t "next:" && (spec_next pre == "[next:user_00]")) =
      next_takes pre t := by
    rw [spec_next_eq_default]
    rfl
  unfold parse_tag_fold spec_state
  simp only []
  rw [hc1, hc2]
  rw [spec_emotion_append, spec_next_append]
  cases he : emotion_takes pre t with
  | true =>
      have hnt : next_takes pre t = false := by
        unfold next_takes
        rw [emotion_not_next ((Bool.and_eq_true _ _).mp he).1]
        rfl
      rw [hnt]
      simp only [Bool.false_eq_true, if_true, if_false, cond_true, cond_false]
      cases hs : find_role_echo [] pre with
      | some s =>
          rw [find_role_echo_append_some pre [] t s hs]
          simp [full_tag]
      | none =>
          rw [find_role_echo_append_none pre [] t hs]
          rw [show ([] : List String) ++ pre = pre from rfl, he]
          simp [full_tag]
  | false =>
      cases hn : next_takes pre t with
      | true =>
          simp only [Bool.false_eq_true, if_true, if_false]
          cases hs : find_role_echo [] pre with
          | some s =>
              rw [find_role_echo_append_some pre [] t s hs]
              simp [full_tag]
          | none =>
              rw [find_role_echo_append_none pre [] t hs]
              rw [show ([] : List String) ++ pre = pre from rfl, he, hn]
              simp [full_tag]
      | false =>
          simp only [Bool.false_eq_true, if_false]
          cases hs : find_role_echo [] pre with
          | some s =>
              rw [find_role_echo_append_some pre [] t s hs]
              simp [hs]
          | none =>
              rw [find_role_echo_append_none pre [] t hs]
              rw [show ([] : List String) ++ pre = pre from rfl, he, hn]
              simp [hs, full_tag]

theorem foldl_parse_tag_spec (tags : List String) :
    ∀ pre, tags.foldl parse_tag_fold (spec_state pre) = spec_state (pre ++ tags) := by
  induction tags with
  | nil => intro pre; simp
  | cons t rest ih =>
      intro pre
      rw [List.foldl_cons, parse_tag_fold_spec, ih (pre ++ [t])]
      have : (pre ++ [t]) ++ rest = pre ++ t :: rest := by
        rw [List.append_assoc]
        rfl
      rw [this]

theorem split_close_nil_inner {l b : List Char} (h : split_close l = some ([], b)) :
    l = ']' :: b := by
  cases l with
  | nil => simp [split_close] at h
  | cons c rest =>
      by_cases hc : c = ']'
      · rw [split_close, if_pos hc] at h
        cases h
        rw [hc]
      · rw [split_close, if_neg hc] at h
        cases hsc : split_close rest with
        | none => rw [hsc] at h; simp at h
        | some p => rw [hsc] at h; simp at h

theorem extract_tags_strip_tokens (l : List Char) :
    extract_tags (strip_tokens l) = [] := by
  induction l using strip_tokens.induct with
  | case1 => rw [strip_tokens.eq_def, extract_tags.eq_def]
  | case2 rest inner after hsplit hempty ih =>
      -- inner empty: rest starts with the closing bracket, the pair is kept
      have hinner : inner = [] := by simpa using hempty
      subst hinner
      have hrest : rest = ']' :: after := split_close_nil_inner hsplit
      have h1 : strip_tokens ('[' :: rest) = '[' :: strip_tokens rest := by
        rw [strip_tokens_cons_open_some hsplit]
        rfl
      have h2 : strip_tokens rest = ']' :: strip_tokens after := by
        rw [hrest, strip_tokens_cons_other (by decide)]
      have h3 : split_close (']' :: strip_tokens after) = some ([], strip_tokens after) := by
        rw [split_close.eq_def]
        simp
      calc extract_tags (strip_tokens ('[' :: rest))
          = extract_tags ('[' :: ']' :: strip_tokens after) := by rw [h1, h2]
        _ = extract_tags (']' :: strip_tokens after) := by
            rw [extract_tags_cons_open_some h3]
            rfl
        _ = extract_tags (strip_tokens rest) := by rw [h2]
        _ = [] := ih
  | case3 rest inner after hsplit hempty ih =>
      have h1 : strip_tokens ('[' :: rest) = strip_tokens after := by
        rw [strip_tokens_cons_open_some hsplit, if_neg hempty]
      rw [h1]
      exact ih
  | case4 rest hsplit =>
      rw [strip_tokens_cons_open_none hsplit, extract_tags_cons_open_none hsplit]
  | case5 c rest hc ih =>
      rw [strip_tokens_cons_other hc, extract_tags_cons_other hc]
      exact ih

/-- C5 counterexample: the next-speaker hint is not always the first
next: bracket token — a literal [next:user_00] token leaves the guard
open, so a later [next:user_01] token overwrites it. -/
theorem C5_counterexample :
    extract_tags "[next:user_00][next:user_01]".data = ["next:user_00", "next:user_01"] ∧
    (parse_utterance "[next:user_00][next:user_01]").next_speaker = "[next:user_01]" ∧
    "[next:user_01]" ≠ "[next:user_00]" := by
  refine ⟨?_, ?_, by decide⟩ <;>
    simp [parse_utterance, extract_tags, split_close, parse_tag_fold, startswith,
      strip_tokens]

/-- C5 (amended): parse_utterance is a total function (it never raises);
its emotion is the first emotion: token of the scan; its next-speaker
hint is the first next: token whose value differs from the default
[next:user_00], defaulting to [next:user_00] — a literal default token
does not claim the slot; its role echo is the first token claimed by
neither the emotion rule nor the next rule at its own position (not
simply the first unrecognized token); its content is the input with
every matched bracket token stripped and contains no bracket token. -/
theorem C5_parse_utterance_spec (text : String) :
    (parse_utterance text).emotion = spec_emotion (extract_tags text.data) ∧
    (parse_utterance text).next_speaker = spec_next (extract_tags text.data) ∧
    (parse_utterance text).speaker = find_role_echo [] (extract_tags text.data) ∧
    (parse_utterance text).content = ⟨strip_tokens text.data⟩ ∧
    extract_tags (parse_utterance text).content.data = [] := by
  have hfold := foldl_parse_tag_spec (extract_tags text.data) []
  rw [show spec_state [] = (none, none, "[next:user_00]") from rfl] at hfold
  rw [show ([] : List String) ++ extract_tags text.data = extract_tags text.data
    from rfl] at hfold
  simp only [parse_utterance]
  rw [hfold]
  exact ⟨by trivial, by trivial, by trivial, by trivial, extract_tags_strip_tokens text.data⟩

end Spalign
